import Mathlib

/-!
Verification of the Superstate plugin (`src/lib.rs`).

The plugin maintains, per entity and per category (superstate type), a
bookkeeping record `SuperstateInfo` and four component hooks:

* `on_add_hook_state`    : runs when a state component is added;
* `on_remove_hook_state` : runs when a state component is removed;
* `on_add_superstate`    : runs when the superstate component is added;
* `on_remove_superstate` : runs when the superstate component is removed.

Hooks read and mutate the record immediately but request all structural
changes (component removals) through a deferred command queue, which the
host store flushes in FIFO order; commands pushed while the queue is being
applied are appended and applied in the same flush.

Component identities are modelled as natural numbers.  The declared bundle
of state identities for the category is a parameter `bundle : List Cid`.
-/

namespace Superstate

/-- Component identity (an opaque, comparable handle; `ComponentId` in the
source). -/
abbrev Cid := Nat

/-- Deferred structural commands on the observed entity.  The first three
are exactly the commands the hooks issue (`remove_by_id`, `remove::<Super>`,
`remove::<States>`); the last two model user-issued insertions. -/
inductive Cmd where
  | removeById (id : Cid)
  | removeSuper
  | removeStates
  | insertState (id : Cid)
  | insertSuper
  deriving DecidableEq, Repr

/-- The per-entity bookkeeping record (`SuperstateInfo` in the source):
`state_ids` caches the declared state identities of the category (lazily
filled), `states_on_entity` is the working set of state identities
currently attached to the entity. -/
structure SuperstateInfo where
  state_ids : List Cid
  states_on_entity : List Cid
  deriving DecidableEq, Repr

/-- First index holding `id`, as in the source's
`iter().enumerate().find(|(_, x)| **x == id)`. -/
def findIndexOf (l : List Cid) (id : Cid) : Option Nat :=
  match l with
  | [] => none
  | a :: rest => if a = id then some 0 else (findIndexOf rest id).map (· + 1)

/-- Rust's `Vec::swap_remove i`: the element at index `i` is replaced by the
last element, which is then popped. -/
def swap_remove (l : List Cid) (i : Nat) : List Cid :=
  (l.set i (l.getLast?.getD 0)).dropLast

/-- List-level body of `SuperstateInfo::remove_by_id`: locate the first
occurrence of `id` and `swap_remove` it; no-op when absent. -/
def removeByIdList (l : List Cid) (id : Cid) : List Cid :=
  match findIndexOf l id with
  | some i => swap_remove l i
  | none => l

/-- `SuperstateInfo::remove_by_id` from the source. -/
def SuperstateInfo.remove_by_id (info : SuperstateInfo) (id : Cid) : SuperstateInfo :=
  { info with states_on_entity := removeByIdList info.states_on_entity id }

/-- Hook `on_add_hook_state` from the source.  `ids` is the list of declared
state component ids (`States::get_component_ids`), `component_id` the id of
the state component just added (`ctx.component_id`).  Returns the updated
record and the list of deferred commands it pushes. -/
def on_add_hook_state (ids : List Cid) (info : SuperstateInfo) (component_id : Cid) :
    SuperstateInfo × List Cmd :=
  let info1 := if info.state_ids.length = 0 then { info with state_ids := ids } else info
  let info2 := { info1 with states_on_entity := info1.states_on_entity ++ [component_id] }
  (info2,
    (info2.states_on_entity.filter (fun id => decide (id ≠ component_id))).map Cmd.removeById)

/-- Hook `on_remove_hook_state` from the source: evict the removed id from
the working set and, if no state is left, schedule removal of the
superstate component. -/
def on_remove_hook_state (info : SuperstateInfo) (component_id : Cid) :
    SuperstateInfo × List Cmd :=
  let info1 := info.remove_by_id component_id
  (info1, if info1.states_on_entity.isEmpty then [Cmd.removeSuper] else [])

/-- Hook `on_add_superstate` from the source: if no state component is
attached at this moment, schedule removal of the superstate component.
The record is only read, never written (the source takes it by shared
reference). -/
def on_add_superstate (info : SuperstateInfo) : List Cmd :=
  if info.states_on_entity.isEmpty then [Cmd.removeSuper] else []

/-- Hook `on_remove_superstate` from the source: schedule removal of the
whole declared state bundle and clear the working set. -/
def on_remove_superstate (info : SuperstateInfo) : SuperstateInfo × List Cmd :=
  ({ info with states_on_entity := [] }, [Cmd.removeStates])

/-! ### Characterisation of `remove_by_id` -/

theorem findIndexOf_eq_none {l : List Cid} {s : Cid} :
    findIndexOf l s = none ↔ s ∉ l := by
  induction l with
  | nil => simp [findIndexOf]
  | cons a t ih =>
    by_cases h : a = s
    · subst h
      simp [findIndexOf]
    · have h2 : ¬s = a := fun hs => h hs.symm
      simp [findIndexOf, h, h2, ih]

theorem findIndexOf_eq_some {l : List Cid} {s : Cid} {i : Nat}
    (h : findIndexOf l s = some i) : i < l.length ∧ l.erase s = l.eraseIdx i := by
  induction l generalizing i with
  | nil => simp [findIndexOf] at h
  | cons a t ih =>
    by_cases ha : a = s
    · subst ha
      simp [findIndexOf] at h
      subst h
      simp
    · have hbeq : ¬(a == s) := by simpa using ha
      simp [findIndexOf, ha] at h
      obtain ⟨j, hj, rfl⟩ := h
      obtain ⟨hlt, herase⟩ := ih hj
      refine ⟨by simpa using Nat.succ_lt_succ hlt, ?_⟩
      rw [List.erase_cons_tail hbeq, herase]
      rfl

theorem cons_getLast_dropLast_perm (l : List Cid) (h : l ≠ []) :
    ((l.getLast h) :: l.dropLast).Perm l := by
  have h1 := List.perm_append_singleton (l.getLast h) l.dropLast
  have h2 : (l.dropLast ++ [l.getLast h]).Perm l := by
    rw [List.dropLast_append_getLast h]
  exact h1.symm.trans h2

theorem swap_remove_perm : ∀ (l : List Cid) (i : Nat), i < l.length →
    (swap_remove l i).Perm (l.eraseIdx i)
  | [], _, h => by simp at h
  | [a], 0, _ => by simp [swap_remove]
  | [a], i + 1, h => by simp at h
  | a :: b :: t, 0, _ => by
    have hne : (b :: t) ≠ [] := List.cons_ne_nil _ _
    simp only [swap_remove, List.getLast?_cons_cons,
      List.getLast?_eq_getLast_of_ne_nil hne, Option.getD_some, List.set_cons_zero,
      List.dropLast_cons₂, List.eraseIdx_cons_zero]
    exact cons_getLast_dropLast_perm (b :: t) hne
  | a :: b :: t, i + 1, h => by
    have hlt : i < (b :: t).length := Nat.lt_of_succ_lt_succ (by simpa using h)
    have hrec := swap_remove_perm (b :: t) i hlt
    have hne2 : (b :: t).set i ((b :: t).getLast?.getD 0) ≠ [] := by
      simp
    simp only [swap_remove, List.getLast?_cons_cons, List.set_cons_succ,
      List.dropLast_cons_of_ne_nil hne2, List.eraseIdx_cons_succ]
    exact List.Perm.cons a hrec

theorem removeByIdList_perm (l : List Cid) (s : Cid) :
    (removeByIdList l s).Perm (l.erase s) := by
  unfold removeByIdList
  cases h : findIndexOf l s with
  | none =>
    rw [List.erase_of_not_mem (findIndexOf_eq_none.mp h)]
  | some i =>
    obtain ⟨hlt, herase⟩ := findIndexOf_eq_some h
    rw [herase]
    exact swap_remove_perm l i hlt

theorem removeByIdList_nodup {l : List Cid} (h : l.Nodup) (s : Cid) :
    (removeByIdList l s).Nodup :=
  (removeByIdList_perm l s).nodup_iff.mpr (h.erase s)

theorem mem_removeByIdList {l : List Cid} (h : l.Nodup) {s x : Cid} :
    x ∈ removeByIdList l s ↔ x ∈ l ∧ x ≠ s := by
  rw [(removeByIdList_perm l s).mem_iff, h.mem_erase_iff]
  tauto

theorem removeByIdList_subset {l : List Cid} {s x : Cid}
    (h : x ∈ removeByIdList l s) : x ∈ l :=
  List.erase_subset _ _ ((removeByIdList_perm l s).subset h)

theorem removeByIdList_of_not_mem {l : List Cid} {s : Cid} (h : s ∉ l) :
    removeByIdList l s = l := by
  unfold removeByIdList
  rw [findIndexOf_eq_none.mpr h]

theorem removeByIdList_eq_nil_iff (l : List Cid) (s : Cid) :
    removeByIdList l s = [] ↔ l.erase s = [] := by
  constructor
  · intro h
    have hp := removeByIdList_perm l s
    rw [h] at hp
    exact hp.symm.eq_nil
  · intro h
    have hp := removeByIdList_perm l s
    rw [h] at hp
    exact hp.eq_nil

/-! ### The host store, observed at one entity

`WState` is the state of one entity together with the pending command queue:
which state components of the bundle are attached (`att`), whether the
superstate component is attached (`sup`), the bookkeeping record, and the
FIFO deferred-command queue.  Hooks run synchronously when a component is
actually added (it was absent) or actually removed (it was present);
commands they push are appended to the queue and applied in the same
flush, as in the host store. -/
structure WState where
  att : Finset Cid
  sup : Bool
  info : SuperstateInfo
  queue : List Cmd
  deriving DecidableEq

/-- The entity before anything of the category touches it: no state
components, no superstate, default-initialised record, empty queue. -/
def initW : WState :=
  { att := ∅, sup := false, info := { state_ids := [], states_on_entity := [] }, queue := [] }

/-- A state component `s` is added (no-op if it is already present, because
then no add happens and no `on_add` hook fires).  The component's own
`on_add` hook runs first; if the superstate component was absent, the
required-component mechanism has also just added it, so its `on_add` hook
runs afterwards, seeing the already-updated record. -/
def attachStateRaw (bundle : List Cid) (w : WState) (s : Cid) : WState :=
  if s ∈ w.att then w
  else
    let r := on_add_hook_state bundle w.info s
    if w.sup then
      { w with att := insert s w.att, info := r.1, queue := w.queue ++ r.2 }
    else
      { w with
        att := insert s w.att
        sup := true
        info := r.1
        queue := w.queue ++ r.2 ++ on_add_superstate r.1 }

/-- A state component `s` is removed (no-op if absent); if present, its
`on_remove` hook runs. -/
def detachStateRaw (w : WState) (s : Cid) : WState :=
  if s ∈ w.att then
    let r := on_remove_hook_state w.info s
    { w with att := w.att.erase s, info := r.1, queue := w.queue ++ r.2 }
  else w

/-- The superstate component is added (no-op if present); its `on_add` hook
runs. -/
def attachSuperRaw (w : WState) : WState :=
  if w.sup then w
  else { w with sup := true, queue := w.queue ++ on_add_superstate w.info }

/-- The superstate component is removed (no-op if absent); its `on_remove`
hook runs. -/
def detachSuperRaw (w : WState) : WState :=
  if w.sup then
    let r := on_remove_superstate w.info
    { w with sup := false, info := r.1, queue := w.queue ++ r.2 }
  else w

/-- Application of one deferred command.  `remove::<States>` removes every
component of the declared bundle in declaration order, running the
`on_remove` hook of each one that was present. -/
def applyCmd (bundle : List Cid) (w : WState) : Cmd → WState
  | Cmd.removeById s => detachStateRaw w s
  | Cmd.removeSuper => detachSuperRaw w
  | Cmd.removeStates => bundle.foldl detachStateRaw w
  | Cmd.insertState s => attachStateRaw bundle w s
  | Cmd.insertSuper => attachSuperRaw w

/-- Commands a user may enqueue: inserts and removals of the category's own
components (other component types have no hooks of this plugin and do not
interact with it). -/
def cmdOk (bundle : List Cid) : Cmd → Prop
  | Cmd.removeById s => s ∈ bundle
  | Cmd.insertState s => s ∈ bundle
  | _ => True

instance (bundle : List Cid) (c : Cmd) : Decidable (cmdOk bundle c) :=
  match c with
  | Cmd.removeById s => inferInstanceAs (Decidable (s ∈ bundle))
  | Cmd.removeSuper => inferInstanceAs (Decidable True)
  | Cmd.removeStates => inferInstanceAs (Decidable True)
  | Cmd.insertState s => inferInstanceAs (Decidable (s ∈ bundle))
  | Cmd.insertSuper => inferInstanceAs (Decidable True)

/-- One step of the system: either the user enqueues a command, or the
store pops the front of the queue and applies it (hooks may append further
commands, which run in the same flush). -/
inductive Step (bundle : List Cid) : WState → WState → Prop where
  | user (w : WState) (c : Cmd) (hc : cmdOk bundle c) :
      Step bundle w { w with queue := w.queue ++ [c] }
  | exec (w : WState) (c : Cmd) (rest : List Cmd) (hq : w.queue = c :: rest) :
      Step bundle w (applyCmd bundle { w with queue := rest } c)

/-- States reachable from the pristine entity. -/
def Reachable (bundle : List Cid) (w : WState) : Prop :=
  Relation.ReflTransGen (Step bundle) initW w

/-- Pop and apply the front command, if any. -/
def execStep (bundle : List Cid) (w : WState) : WState :=
  match w.queue with
  | [] => w
  | c :: rest => applyCmd bundle { w with queue := rest } c

/-- Run `n` queue-application steps (fuel-driven flush). -/
def flushFuel (bundle : List Cid) : Nat → WState → WState
  | 0, w => w
  | n + 1, w => flushFuel bundle n (execStep bundle w)

theorem execStep_of_queue_nil {bundle : List Cid} {w : WState} (h : w.queue = []) :
    execStep bundle w = w := by
  unfold execStep
  split
  · rfl
  · rename_i c rest hq
    rw [h] at hq
    cases hq

theorem execStep_of_queue_cons {bundle : List Cid} {w : WState} {c : Cmd} {rest : List Cmd}
    (h : w.queue = c :: rest) :
    execStep bundle w = applyCmd bundle { w with queue := rest } c := by
  unfold execStep
  split
  · rename_i hq
    rw [h] at hq
    cases hq
  · rename_i c2 rest2 hq
    rw [h] at hq
    cases hq
    rfl

theorem flushFuel_of_queue_nil {bundle : List Cid} {w : WState} (h : w.queue = []) :
    ∀ n, flushFuel bundle n w = w := by
  intro n
  induction n with
  | zero => rfl
  | succ n ih =>
    show flushFuel bundle n (execStep bundle w) = w
    rw [execStep_of_queue_nil h]
    exact ih

theorem flushFuel_add (bundle : List Cid) (a b : Nat) (w : WState) :
    flushFuel bundle (a + b) w = flushFuel bundle b (flushFuel bundle a w) := by
  induction a generalizing w with
  | zero => simp [flushFuel]
  | succ a ih =>
    have h1 : a + 1 + b = (a + b) + 1 := by omega
    rw [h1]
    show flushFuel bundle (a + b) (execStep bundle w) = _
    rw [ih]
    rfl

/-- Once the flush settles (empty queue), further steps change nothing;
hence any two settle points of the same run agree. -/
theorem flushFuel_settle_unique {bundle : List Cid} {w : WState} {n m : Nat}
    (hn : (flushFuel bundle n w).queue = []) (hm : (flushFuel bundle m w).queue = []) :
    flushFuel bundle n w = flushFuel bundle m w := by
  rcases Nat.le_total n m with h | h
  · obtain ⟨k, rfl⟩ := Nat.le.dest h
    rw [flushFuel_add, flushFuel_of_queue_nil hn]
  · obtain ⟨k, rfl⟩ := Nat.le.dest h
    rw [flushFuel_add, flushFuel_of_queue_nil hm]

theorem reachable_step {bundle : List Cid} {w w2 : WState}
    (h : Reachable bundle w) (h2 : Step bundle w w2) : Reachable bundle w2 :=
  Relation.ReflTransGen.tail h h2

theorem reachable_execStep {bundle : List Cid} {w : WState}
    (h : Reachable bundle w) : Reachable bundle (execStep bundle w) := by
  cases hq : w.queue with
  | nil => rw [execStep_of_queue_nil hq]; exact h
  | cons c rest =>
    rw [execStep_of_queue_cons hq]
    exact reachable_step h (Step.exec w c rest hq)

theorem reachable_flushFuel {bundle : List Cid} {w : WState}
    (h : Reachable bundle w) (n : Nat) : Reachable bundle (flushFuel bundle n w) := by
  induction n generalizing w with
  | zero => exact h
  | succ n ih => exact ih (reachable_execStep h)

theorem reachable_enqueue {bundle : List Cid} {w : WState}
    (h : Reachable bundle w) {c : Cmd} (hc : cmdOk bundle c) :
    Reachable bundle { w with queue := w.queue ++ [c] } :=
  reachable_step h (Step.user w c hc)

theorem reachable_load {bundle : List Cid} {w : WState}
    (h : Reachable bundle w) (cs : List Cmd) (hcs : ∀ c ∈ cs, cmdOk bundle c) :
    Reachable bundle { w with queue := w.queue ++ cs } := by
  induction cs generalizing w with
  | nil => simpa using h
  | cons c cs ih =>
    have h1 := reachable_enqueue h (hcs c (List.mem_cons_self c cs))
    have h2 := ih h1 (fun d hd => hcs d (List.mem_cons_of_mem c hd))
    simpa [List.append_assoc] using h2

/-! ### Shapes of the raw operations -/

theorem on_remove_hook_state_fst (info : SuperstateInfo) (s : Cid) :
    (on_remove_hook_state info s).1 =
      { info with states_on_entity := removeByIdList info.states_on_entity s } := rfl

theorem on_remove_hook_state_snd (info : SuperstateInfo) (s : Cid) :
    (on_remove_hook_state info s).2 =
      if removeByIdList info.states_on_entity s = [] then [Cmd.removeSuper] else [] := by
  unfold on_remove_hook_state
  by_cases h : removeByIdList info.states_on_entity s = [] <;>
    simp [SuperstateInfo.remove_by_id, h]

theorem on_add_hook_state_fst_states (ids : List Cid) (info : SuperstateInfo) (s : Cid) :
    (on_add_hook_state ids info s).1.states_on_entity = info.states_on_entity ++ [s] := by
  unfold on_add_hook_state
  by_cases h : info.state_ids.length = 0 <;> simp [h]

theorem on_add_hook_state_fst_ids (ids : List Cid) (info : SuperstateInfo) (s : Cid) :
    (on_add_hook_state ids info s).1.state_ids =
      if info.state_ids.length = 0 then ids else info.state_ids := by
  unfold on_add_hook_state
  by_cases h : info.state_ids.length = 0 <;> simp [h]

theorem on_add_hook_state_snd (ids : List Cid) (info : SuperstateInfo) (s : Cid) :
    (on_add_hook_state ids info s).2 =
      ((info.states_on_entity ++ [s]).filter (fun id => decide (id ≠ s))).map
        Cmd.removeById := by
  unfold on_add_hook_state
  by_cases h : info.state_ids.length = 0 <;> simp [h]

theorem on_add_hook_state_snd_of_not_mem {ids : List Cid} {info : SuperstateInfo} {s : Cid}
    (h : s ∉ info.states_on_entity) :
    (on_add_hook_state ids info s).2 = info.states_on_entity.map Cmd.removeById := by
  rw [on_add_hook_state_snd]
  have h1 : (info.states_on_entity ++ [s]).filter (fun id => decide (id ≠ s)) =
      info.states_on_entity := by
    rw [List.filter_append]
    have h2 : info.states_on_entity.filter (fun id => decide (id ≠ s)) =
        info.states_on_entity := by
      apply List.filter_eq_self.mpr
      intro a ha
      simp only [decide_eq_true_eq]
      intro he
      exact h (he ▸ ha)
    rw [h2]
    simp
  rw [h1]

theorem mem_on_add_hook_state_snd (ids : List Cid) (info : SuperstateInfo) (s x : Cid) :
    Cmd.removeById x ∈ (on_add_hook_state ids info s).2 ↔
      x ∈ info.states_on_entity ∧ x ≠ s := by
  rw [on_add_hook_state_snd]
  simp only [List.mem_map, List.mem_filter, List.mem_append, List.mem_singleton,
    decide_eq_true_eq, Cmd.removeById.injEq]
  constructor
  · rintro ⟨a, ⟨ha, hne⟩, rfl⟩
    rcases ha with ha | rfl
    · exact ⟨ha, hne⟩
    · exact absurd rfl hne
  · rintro ⟨hx, hne⟩
    exact ⟨x, ⟨Or.inl hx, hne⟩, rfl⟩

theorem on_add_hook_state_snd_shape (ids : List Cid) (info : SuperstateInfo) (s : Cid) :
    ∀ c ∈ (on_add_hook_state ids info s).2,
      ∃ x, c = Cmd.removeById x ∧ x ∈ info.states_on_entity ∧ x ≠ s := by
  rw [on_add_hook_state_snd]
  intro c hc
  simp only [List.mem_map, List.mem_filter, List.mem_append, List.mem_singleton,
    decide_eq_true_eq] at hc
  obtain ⟨a, ⟨ha, hne⟩, rfl⟩ := hc
  rcases ha with ha | rfl
  · exact ⟨a, rfl, ha, hne⟩
  · exact absurd rfl hne

theorem on_add_superstate_of_ne_nil {info : SuperstateInfo}
    (h : info.states_on_entity ≠ []) : on_add_superstate info = [] := by
  unfold on_add_superstate
  simp [h]

theorem on_add_superstate_of_nil {info : SuperstateInfo}
    (h : info.states_on_entity = []) : on_add_superstate info = [Cmd.removeSuper] := by
  unfold on_add_superstate
  simp [h]

theorem detachStateRaw_of_mem {w : WState} {s : Cid} (h : s ∈ w.att) :
    detachStateRaw w s =
      { w with
        att := w.att.erase s
        info := (on_remove_hook_state w.info s).1
        queue := w.queue ++ (on_remove_hook_state w.info s).2 } := by
  unfold detachStateRaw
  rw [if_pos h]

theorem detachStateRaw_of_not_mem {w : WState} {s : Cid} (h : s ∉ w.att) :
    detachStateRaw w s = w := by
  unfold detachStateRaw
  rw [if_neg h]

theorem detachStateRaw_att (w : WState) (s : Cid) :
    (detachStateRaw w s).att = w.att.erase s := by
  by_cases h : s ∈ w.att
  · rw [detachStateRaw_of_mem h]
  · rw [detachStateRaw_of_not_mem h, Finset.erase_eq_of_not_mem h]

theorem detachStateRaw_sup (w : WState) (s : Cid) :
    (detachStateRaw w s).sup = w.sup := by
  by_cases h : s ∈ w.att
  · rw [detachStateRaw_of_mem h]
  · rw [detachStateRaw_of_not_mem h]

theorem detachStateRaw_state_ids (w : WState) (s : Cid) :
    (detachStateRaw w s).info.state_ids = w.info.state_ids := by
  by_cases h : s ∈ w.att
  · rw [detachStateRaw_of_mem h]
    rfl
  · rw [detachStateRaw_of_not_mem h]

theorem attachStateRaw_of_not_mem {bundle : List Cid} {w : WState} {s : Cid}
    (h : s ∉ w.att) :
    attachStateRaw bundle w s =
      { w with
        att := insert s w.att
        sup := true
        info := (on_add_hook_state bundle w.info s).1
        queue := w.queue ++ (on_add_hook_state bundle w.info s).2 } := by
  unfold attachStateRaw
  rw [if_neg h]
  by_cases hsup : w.sup
  · simp only [if_pos hsup]
    cases w
    simp_all
  · simp only [if_neg hsup]
    have hne : (on_add_hook_state bundle w.info s).1.states_on_entity ≠ [] := by
      rw [on_add_hook_state_fst_states]
      simp
    rw [on_add_superstate_of_ne_nil hne]
    cases w
    simp_all

theorem attachStateRaw_of_mem {bundle : List Cid} {w : WState} {s : Cid}
    (h : s ∈ w.att) : attachStateRaw bundle w s = w := by
  unfold attachStateRaw
  rw [if_pos h]

theorem attachSuperRaw_of_sup {w : WState} (h : w.sup = true) :
    attachSuperRaw w = w := by
  unfold attachSuperRaw
  rw [if_pos h]

theorem attachSuperRaw_of_not_sup {w : WState} (h : w.sup = false) :
    attachSuperRaw w =
      { w with sup := true, queue := w.queue ++ on_add_superstate w.info } := by
  unfold attachSuperRaw
  rw [if_neg (by simp [h])]

theorem detachSuperRaw_of_sup {w : WState} (h : w.sup = true) :
    detachSuperRaw w =
      { w with
        sup := false
        info := (on_remove_superstate w.info).1
        queue := w.queue ++ (on_remove_superstate w.info).2 } := by
  unfold detachSuperRaw
  rw [if_pos h]

theorem detachSuperRaw_of_not_sup {w : WState} (h : w.sup = false) :
    detachSuperRaw w = w := by
  unfold detachSuperRaw
  rw [if_neg (by simp [h])]

/-! ### The system invariant -/

/-- A removal of state `s` is pending in the queue, either as an individual
`remove_by_id` or as part of a whole-bundle `remove::<States>`. -/
def killPending (q : List Cmd) (s : Cid) : Prop :=
  Cmd.removeById s ∈ q ∨ Cmd.removeStates ∈ q

theorem killPending_append_left {q q2 : List Cmd} {s : Cid}
    (h : killPending q s) : killPending (q ++ q2) s := by
  rcases h with h | h
  · exact Or.inl (List.mem_append_left _ h)
  · exact Or.inr (List.mem_append_left _ h)

theorem killPending_append_right {q q2 : List Cmd} {s : Cid}
    (h : killPending q2 s) : killPending (q ++ q2) s := by
  rcases h with h | h
  · exact Or.inl (List.mem_append_right _ h)
  · exact Or.inr (List.mem_append_right _ h)

theorem killPending_tail {c : Cmd} {q : List Cmd} {s : Cid}
    (h : killPending (c :: q) s) (h1 : c ≠ Cmd.removeById s)
    (h2 : c ≠ Cmd.removeStates) : killPending q s := by
  rcases h with h | h
  · rcases List.mem_cons.mp h with h3 | h3
    · exact absurd h3.symm h1
    · exact Or.inl h3
  · rcases List.mem_cons.mp h with h3 | h3
    · exact absurd h3.symm h2
    · exact Or.inr h3

theorem not_killPending_nil (s : Cid) : ¬killPending [] s := by
  simp [killPending]

/-- Inductive invariant of the whole system, for one entity and one
category with declared state bundle `bundle`. -/
structure Inv (bundle : List Cid) (w : WState) : Prop where
  nodup : w.info.states_on_entity.Nodup
  active_att : ∀ s ∈ w.info.states_on_entity, s ∈ w.att
  att_bundle : ∀ s ∈ w.att, s ∈ bundle
  orphan_kill : ∀ s ∈ w.att, s ∉ w.info.states_on_entity → killPending w.queue s
  one_live : ∃ t, ∀ s ∈ w.info.states_on_entity, s ≠ t → killPending w.queue s
  sup_of_active : w.info.states_on_entity ≠ [] → w.sup = true
  sup_kill : w.sup = true → w.info.states_on_entity = [] → Cmd.removeSuper ∈ w.queue
  ids_ok : w.info.state_ids = [] ∨ w.info.state_ids = bundle
  queue_ok : ∀ c ∈ w.queue, cmdOk bundle c

theorem inv_init (bundle : List Cid) : Inv bundle initW := by
  refine ⟨?_, ?_, ?_, ?_, ⟨0, ?_⟩, ?_, ?_, ?_, ?_⟩ <;> simp [initW]

theorem inv_user {bundle : List Cid} {w : WState} {c : Cmd}
    (hw : Inv bundle w) (hc : cmdOk bundle c) :
    Inv bundle { w with queue := w.queue ++ [c] } := by
  obtain ⟨t, ht⟩ := hw.one_live
  refine ⟨hw.nodup, hw.active_att, hw.att_bundle, ?_, ⟨t, ?_⟩, hw.sup_of_active, ?_, hw.ids_ok, ?_⟩
  · intro s hs hns
    exact killPending_append_left (hw.orphan_kill s hs hns)
  · intro s hs hst
    exact killPending_append_left (ht s hs hst)
  · intro hsup hnil
    exact List.mem_append_left _ (hw.sup_kill hsup hnil)
  · intro d hd
    rcases List.mem_append.mp hd with hd | hd
    · exact hw.queue_ok d hd
    · rw [List.mem_singleton.mp hd]
      exact hc

theorem inv_exec_removeById {bundle : List Cid} {w : WState} {s : Cid} {rest : List Cmd}
    (hw : Inv bundle w) (hq : w.queue = Cmd.removeById s :: rest) :
    Inv bundle (detachStateRaw { w with queue := rest } s) := by
  obtain ⟨t, ht⟩ := hw.one_live
  have hkill : ∀ x, x ≠ s → killPending w.queue x → killPending rest x := by
    intro x hx hk
    rw [hq] at hk
    exact killPending_tail hk (by simp [Ne.symm hx]) (by simp)
  by_cases hs : s ∈ w.att
  · rw [detachStateRaw_of_mem (show s ∈ WState.att { w with queue := rest } from hs)]
    simp only [on_remove_hook_state_fst, on_remove_hook_state_snd]
    have hmem : ∀ x, x ∈ removeByIdList w.info.states_on_entity s ↔
        x ∈ w.info.states_on_entity ∧ x ≠ s := fun x => mem_removeByIdList hw.nodup
    refine ⟨?_, ?_, ?_, ?_, ⟨t, ?_⟩, ?_, ?_, hw.ids_ok, ?_⟩
    · exact removeByIdList_nodup hw.nodup s
    · intro x hx
      obtain ⟨hx1, hx2⟩ := (hmem x).mp hx
      exact Finset.mem_erase.mpr ⟨hx2, hw.active_att x hx1⟩
    · intro x hx
      exact hw.att_bundle x (Finset.mem_of_mem_erase hx)
    · intro x hx hnx
      obtain ⟨hxs, hxa⟩ := Finset.mem_erase.mp hx
      have hxl : x ∉ w.info.states_on_entity := by
        intro hc
        exact hnx ((hmem x).mpr ⟨hc, hxs⟩)
      exact killPending_append_left (hkill x hxs (hw.orphan_kill x hxa hxl))
    · intro x hx hxt
      obtain ⟨hx1, hx2⟩ := (hmem x).mp hx
      exact killPending_append_left (hkill x hx2 (ht x hx1 hxt))
    · intro hne
      obtain ⟨x, hx⟩ := List.exists_mem_of_ne_nil _ hne
      exact hw.sup_of_active (List.ne_nil_of_mem ((hmem x).mp hx).1)
    · intro _ hnil
      dsimp only at hnil ⊢
      rw [if_pos hnil]
      simp
    · intro d hd
      dsimp only at hd
      rcases List.mem_append.mp hd with hd | hd
      · exact hw.queue_ok d (by rw [hq]; exact List.mem_cons_of_mem _ hd)
      · split at hd
        · rw [List.mem_singleton.mp hd]
          trivial
        · cases hd
  · rw [detachStateRaw_of_not_mem (show s ∉ WState.att { w with queue := rest } from hs)]
    refine ⟨hw.nodup, hw.active_att, hw.att_bundle, ?_, ⟨t, ?_⟩, hw.sup_of_active, ?_, hw.ids_ok, ?_⟩
    · intro x hx hnx
      exact hkill x (fun he => hs (he ▸ hx)) (hw.orphan_kill x hx hnx)
    · intro x hx hxt
      exact hkill x (fun he => hs (he ▸ hw.active_att x hx)) (ht x hx hxt)
    · intro hsup hnil
      have h2 := hw.sup_kill hsup hnil
      rw [hq] at h2
      rcases List.mem_cons.mp h2 with h3 | h3
      · cases h3
      · exact h3
    · intro d hd
      exact hw.queue_ok d (by rw [hq]; exact List.mem_cons_of_mem _ hd)

theorem inv_exec_insertState {bundle : List Cid} {w : WState} {s : Cid} {rest : List Cmd}
    (hw : Inv bundle w) (hq : w.queue = Cmd.insertState s :: rest) :
    Inv bundle (attachStateRaw bundle { w with queue := rest } s) := by
  obtain ⟨t, ht⟩ := hw.one_live
  have hsb : s ∈ bundle := by
    have := hw.queue_ok (Cmd.insertState s) (by rw [hq]; exact List.mem_cons_self _ _)
    exact this
  have hkill : ∀ x, killPending w.queue x → killPending rest x := by
    intro x hk
    rw [hq] at hk
    exact killPending_tail hk (by simp) (by simp)
  by_cases hs : s ∈ w.att
  · rw [attachStateRaw_of_mem (show s ∈ WState.att { w with queue := rest } from hs)]
    refine ⟨hw.nodup, hw.active_att, hw.att_bundle, ?_, ⟨t, ?_⟩, hw.sup_of_active, ?_, hw.ids_ok, ?_⟩
    · intro x hx hnx
      exact hkill x (hw.orphan_kill x hx hnx)
    · intro x hx hxt
      exact hkill x (ht x hx hxt)
    · intro hsup hnil
      have h2 := hw.sup_kill hsup hnil
      rw [hq] at h2
      rcases List.mem_cons.mp h2 with h3 | h3
      · cases h3
      · exact h3
    · intro d hd
      exact hw.queue_ok d (by rw [hq]; exact List.mem_cons_of_mem _ hd)
  · have hsl : s ∉ w.info.states_on_entity := fun hc => hs (hw.active_att s hc)
    rw [attachStateRaw_of_not_mem (show s ∉ WState.att { w with queue := rest } from hs)]
    have hsts : (on_add_hook_state bundle w.info s).1.states_on_entity =
        w.info.states_on_entity ++ [s] := on_add_hook_state_fst_states bundle w.info s
    have hcmds : (on_add_hook_state bundle w.info s).2 =
        w.info.states_on_entity.map Cmd.removeById := on_add_hook_state_snd_of_not_mem hsl
    refine ⟨?_, ?_, ?_, ?_, ⟨s, ?_⟩, ?_, ?_, ?_, ?_⟩
    · dsimp only
      rw [hsts]
      simp only [List.nodup_append, List.nodup_singleton]
      exact ⟨hw.nodup, trivial, by simpa [List.disjoint_singleton] using hsl⟩
    · intro x hx
      dsimp only at hx ⊢
      rw [hsts] at hx
      rcases List.mem_append.mp hx with hx | hx
      · exact Finset.mem_insert_of_mem (hw.active_att x hx)
      · rw [List.mem_singleton.mp hx]
        exact Finset.mem_insert_self _ _
    · intro x hx
      dsimp only at hx
      rcases Finset.mem_insert.mp hx with rfl | hx
      · exact hsb
      · exact hw.att_bundle x hx
    · intro x hx hnx
      dsimp only at hx hnx ⊢
      rw [hsts] at hnx
      have hxs : x ≠ s := by
        intro he
        exact hnx (he ▸ List.mem_append_right _ (List.mem_singleton_self _))
      have hxa : x ∈ w.att := by
        rcases Finset.mem_insert.mp hx with he | hxa
        · exact absurd he hxs
        · exact hxa
      have hxl : x ∉ w.info.states_on_entity :=
        fun hc => hnx (List.mem_append_left _ hc)
      exact killPending_append_left (hkill x (hw.orphan_kill x hxa hxl))
    · intro x hx hxs
      dsimp only at hx ⊢
      rw [hsts] at hx
      have hxl : x ∈ w.info.states_on_entity := by
        rcases List.mem_append.mp hx with hx | hx
        · exact hx
        · exact absurd (List.mem_singleton.mp hx) hxs
      refine killPending_append_right ?_
      rw [hcmds]
      exact Or.inl (List.mem_map_of_mem Cmd.removeById hxl)
    · intro _
      rfl
    · intro _ hnil
      dsimp only at hnil
      rw [hsts] at hnil
      simp at hnil
    · dsimp only
      rw [on_add_hook_state_fst_ids]
      by_cases hids : w.info.state_ids.length = 0
      · rw [if_pos hids]
        exact Or.inr rfl
      · rw [if_neg hids]
        exact hw.ids_ok
    · intro d hd
      dsimp only at hd
      rcases List.mem_append.mp hd with hd | hd
      · exact hw.queue_ok d (by rw [hq]; exact List.mem_cons_of_mem _ hd)
      · rw [hcmds] at hd
        obtain ⟨x, hx, rfl⟩ := List.mem_map.mp hd
        exact hw.att_bundle x (hw.active_att x hx)

theorem inv_exec_insertSuper {bundle : List Cid} {w : WState} {rest : List Cmd}
    (hw : Inv bundle w) (hq : w.queue = Cmd.insertSuper :: rest) :
    Inv bundle (attachSuperRaw { w with queue := rest }) := by
  obtain ⟨t, ht⟩ := hw.one_live
  have hkill : ∀ x, killPending w.queue x → killPending rest x := by
    intro x hk
    rw [hq] at hk
    exact killPending_tail hk (by simp) (by simp)
  by_cases hsup : w.sup = true
  · rw [attachSuperRaw_of_sup (show WState.sup { w with queue := rest } = true from hsup)]
    refine ⟨hw.nodup, hw.active_att, hw.att_bundle, ?_, ⟨t, ?_⟩, hw.sup_of_active, ?_, hw.ids_ok, ?_⟩
    · intro x hx hnx
      exact hkill x (hw.orphan_kill x hx hnx)
    · intro x hx hxt
      exact hkill x (ht x hx hxt)
    · intro _ hnil
      have h2 := hw.sup_kill hsup hnil
      rw [hq] at h2
      rcases List.mem_cons.mp h2 with h3 | h3
      · cases h3
      · exact h3
    · intro d hd
      exact hw.queue_ok d (by rw [hq]; exact List.mem_cons_of_mem _ hd)
  · have hsup2 : w.sup = false := by
      cases h : w.sup
      · rfl
      · exact absurd h hsup
    have hnil : w.info.states_on_entity = [] := by
      by_contra hne
      rw [hw.sup_of_active hne] at hsup2
      cases hsup2
    rw [attachSuperRaw_of_not_sup (show WState.sup { w with queue := rest } = false from hsup2)]
    simp only [on_add_superstate_of_nil (show SuperstateInfo.states_on_entity
      (WState.info { w with queue := rest }) = [] from hnil)]
    refine ⟨hw.nodup, hw.active_att, hw.att_bundle, ?_, ⟨t, ?_⟩, ?_, ?_, hw.ids_ok, ?_⟩
    · intro x hx hnx
      exact killPending_append_left (hkill x (hw.orphan_kill x hx hnx))
    · intro x hx hxt
      exact killPending_append_left (hkill x (ht x hx hxt))
    · intro _
      rfl
    · intro _ _
      exact List.mem_append_right _ (List.mem_singleton_self _)
    · intro d hd
      dsimp only at hd
      rcases List.mem_append.mp hd with hd | hd
      · exact hw.queue_ok d (by rw [hq]; exact List.mem_cons_of_mem _ hd)
      · rw [List.mem_singleton.mp hd]
        trivial

theorem inv_exec_removeSuper {bundle : List Cid} {w : WState} {rest : List Cmd}
    (hw : Inv bundle w) (hq : w.queue = Cmd.removeSuper :: rest) :
    Inv bundle (detachSuperRaw { w with queue := rest }) := by
  obtain ⟨t, ht⟩ := hw.one_live
  have hkill : ∀ x, killPending w.queue x → killPending rest x := by
    intro x hk
    rw [hq] at hk
    exact killPending_tail hk (by simp) (by simp)
  by_cases hsup : w.sup = true
  · rw [detachSuperRaw_of_sup (show WState.sup { w with queue := rest } = true from hsup)]
    refine ⟨?_, ?_, hw.att_bundle, ?_, ⟨0, ?_⟩, ?_, ?_, hw.ids_ok, ?_⟩
    · exact List.nodup_nil
    · intro x hx
      cases hx
    · intro x _ _
      exact killPending_append_right (Or.inr (List.mem_singleton_self _))
    · intro x hx
      cases hx
    · intro hne
      exact absurd rfl hne
    · intro h2
      cases h2
    · intro d hd
      dsimp only at hd
      rcases List.mem_append.mp hd with hd | hd
      · exact hw.queue_ok d (by rw [hq]; exact List.mem_cons_of_mem _ hd)
      · rw [List.mem_singleton.mp hd]
        trivial
  · have hsup2 : w.sup = false := by
      cases h : w.sup
      · rfl
      · exact absurd h hsup
    rw [detachSuperRaw_of_not_sup (show WState.sup { w with queue := rest } = false from hsup2)]
    refine ⟨hw.nodup, hw.active_att, hw.att_bundle, ?_, ⟨t, ?_⟩, ?_, ?_, hw.ids_ok, ?_⟩
    · intro x hx hnx
      exact hkill x (hw.orphan_kill x hx hnx)
    · intro x hx hxt
      exact hkill x (ht x hx hxt)
    · intro hne
      exact hw.sup_of_active hne
    · intro h2
      rw [show WState.sup { w with queue := rest } = false from hsup2] at h2
      cases h2
    · intro d hd
      exact hw.queue_ok d (by rw [hq]; exact List.mem_cons_of_mem _ hd)

/-- The part of the invariant that each single state detachment preserves;
used to step through the bundle-wide removal fold. -/
structure FoldInv (bundle : List Cid) (w : WState) : Prop where
  nodup : w.info.states_on_entity.Nodup
  active_att : ∀ s ∈ w.info.states_on_entity, s ∈ w.att
  att_bundle : ∀ s ∈ w.att, s ∈ bundle
  sup_of_active : w.info.states_on_entity ≠ [] → w.sup = true
  sup_need : w.sup = true → w.info.states_on_entity = [] → Cmd.removeSuper ∈ w.queue
  ids_ok : w.info.state_ids = [] ∨ w.info.state_ids = bundle
  queue_ok : ∀ c ∈ w.queue, cmdOk bundle c

theorem foldInv_detach {bundle : List Cid} {w : WState} (hw : FoldInv bundle w) (s : Cid) :
    FoldInv bundle (detachStateRaw w s) := by
  by_cases hs : s ∈ w.att
  · rw [detachStateRaw_of_mem hs]
    simp only [on_remove_hook_state_fst, on_remove_hook_state_snd]
    have hmem : ∀ x, x ∈ removeByIdList w.info.states_on_entity s ↔
        x ∈ w.info.states_on_entity ∧ x ≠ s := fun x => mem_removeByIdList hw.nodup
    refine ⟨removeByIdList_nodup hw.nodup s, ?_, ?_, ?_, ?_, hw.ids_ok, ?_⟩
    · intro x hx
      obtain ⟨hx1, hx2⟩ := (hmem x).mp hx
      exact Finset.mem_erase.mpr ⟨hx2, hw.active_att x hx1⟩
    · intro x hx
      exact hw.att_bundle x (Finset.mem_of_mem_erase hx)
    · intro hne
      obtain ⟨x, hx⟩ := List.exists_mem_of_ne_nil _ hne
      exact hw.sup_of_active (List.ne_nil_of_mem ((hmem x).mp hx).1)
    · intro _ hnil
      dsimp only at hnil ⊢
      rw [if_pos hnil]
      simp
    · intro d hd
      dsimp only at hd
      rcases List.mem_append.mp hd with hd | hd
      · exact hw.queue_ok d hd
      · split at hd
        · rw [List.mem_singleton.mp hd]
          trivial
        · cases hd
  · rw [detachStateRaw_of_not_mem hs]
    exact hw

theorem foldInv_fold {bundle : List Cid} {w : WState} (hw : FoldInv bundle w)
    (ls : List Cid) : FoldInv bundle (ls.foldl detachStateRaw w) := by
  induction ls generalizing w with
  | nil => exact hw
  | cons a t ih => exact ih (foldInv_detach hw a)

theorem fold_detach_att (w : WState) (ls : List Cid) :
    (ls.foldl detachStateRaw w).att = w.att \ ls.toFinset := by
  induction ls generalizing w with
  | nil => simp
  | cons a t ih =>
    show (t.foldl detachStateRaw (detachStateRaw w a)).att = _
    rw [ih, detachStateRaw_att]
    ext x
    simp only [Finset.mem_sdiff, Finset.mem_erase, List.toFinset_cons, Finset.mem_insert,
      List.mem_toFinset]
    tauto

theorem inv_exec_removeStates {bundle : List Cid} {w : WState} {rest : List Cmd}
    (hw : Inv bundle w) (hq : w.queue = Cmd.removeStates :: rest) :
    Inv bundle (bundle.foldl detachStateRaw { w with queue := rest }) := by
  have hf0 : FoldInv bundle { w with queue := rest } := by
    refine ⟨hw.nodup, hw.active_att, hw.att_bundle, hw.sup_of_active, ?_, hw.ids_ok, ?_⟩
    · intro hsup hnil
      have h2 := hw.sup_kill hsup hnil
      rw [hq] at h2
      rcases List.mem_cons.mp h2 with h3 | h3
      · cases h3
      · exact h3
    · intro d hd
      exact hw.queue_ok d (by rw [hq]; exact List.mem_cons_of_mem _ hd)
  have hf := foldInv_fold hf0 bundle
  have hatt : (bundle.foldl detachStateRaw { w with queue := rest }).att = ∅ := by
    rw [fold_detach_att]
    apply Finset.eq_empty_of_forall_not_mem
    intro x hx
    obtain ⟨hx1, hx2⟩ := Finset.mem_sdiff.mp hx
    exact hx2 (List.mem_toFinset.mpr (hw.att_bundle x hx1))
  have hnil : (bundle.foldl detachStateRaw { w with queue := rest }).info.states_on_entity
      = [] := by
    apply List.eq_nil_iff_forall_not_mem.mpr
    intro x hx
    have h2 := hf.active_att x hx
    rw [hatt] at h2
    cases h2
  refine ⟨hf.nodup, hf.active_att, hf.att_bundle, ?_, ⟨0, ?_⟩, hf.sup_of_active, ?_,
    hf.ids_ok, hf.queue_ok⟩
  · intro x hx
    rw [hatt] at hx
    cases hx
  · intro x hx
    rw [hnil] at hx
    cases hx
  · intro hsup _
    exact hf.sup_need hsup hnil

/-- The invariant is preserved by every step. -/
theorem inv_step {bundle : List Cid} {w w2 : WState}
    (hw : Inv bundle w) (hs : Step bundle w w2) : Inv bundle w2 := by
  cases hs with
  | user c hc => exact inv_user hw hc
  | exec c rest hq =>
    cases c with
    | removeById s => exact inv_exec_removeById hw hq
    | removeSuper => exact inv_exec_removeSuper hw hq
    | removeStates => exact inv_exec_removeStates hw hq
    | insertState s => exact inv_exec_insertState hw hq
    | insertSuper => exact inv_exec_insertSuper hw hq

/-- Every reachable state satisfies the invariant. -/
theorem reachable_inv {bundle : List Cid} {w : WState}
    (h : Reachable bundle w) : Inv bundle w := by
  induction h with
  | refl => exact inv_init bundle
  | tail _ hstep ih => exact inv_step ih hstep

/-! ### Settled (flushed) states -/

theorem settled_att_iff {bundle : List Cid} {w : WState}
    (hw : Inv bundle w) (hq : w.queue = []) :
    ∀ x, x ∈ w.att ↔ x ∈ w.info.states_on_entity := by
  intro x
  constructor
  · intro hx
    by_contra hnx
    have := hw.orphan_kill x hx hnx
    rw [hq] at this
    exact not_killPending_nil x this
  · exact hw.active_att x

theorem settled_all_eq {bundle : List Cid} {w : WState}
    (hw : Inv bundle w) (hq : w.queue = []) :
    ∀ x ∈ w.info.states_on_entity, ∀ y ∈ w.info.states_on_entity, x = y := by
  obtain ⟨t, ht⟩ := hw.one_live
  have hall : ∀ x ∈ w.info.states_on_entity, x = t := by
    intro x hx
    by_contra hxt
    have := ht x hx hxt
    rw [hq] at this
    exact not_killPending_nil x this
  intro x hx y hy
  rw [hall x hx, hall y hy]

theorem settled_card_le_one {bundle : List Cid} {w : WState}
    (hw : Inv bundle w) (hq : w.queue = []) : w.att.card ≤ 1 := by
  apply Finset.card_le_one.mpr
  intro a ha b hb
  exact settled_all_eq hw hq a ((settled_att_iff hw hq a).mp ha)
    b ((settled_att_iff hw hq b).mp hb)

theorem settled_sup_iff {bundle : List Cid} {w : WState}
    (hw : Inv bundle w) (hq : w.queue = []) :
    w.sup = true ↔ w.info.states_on_entity ≠ [] := by
  constructor
  · intro hsup hnil
    have := hw.sup_kill hsup hnil
    rw [hq] at this
    cases this
  · exact hw.sup_of_active

/-! ### Last write wins for insert-only transactions -/

theorem nodup_all_eq_singleton {l : List Cid} {T : Cid} (hnd : l.Nodup) (hT : T ∈ l)
    (hall : ∀ u ∈ l, u = T) : l = [T] := by
  cases l with
  | nil => cases hT
  | cons a t =>
    have ha : a = T := hall a (List.mem_cons_self _ _)
    subst ha
    have ht : t = [] := by
      apply List.eq_nil_iff_forall_not_mem.mpr
      intro u hu
      have hu2 := hall u (List.mem_cons_of_mem _ hu)
      subst hu2
      exact (List.nodup_cons.mp hnd).1 hu
    rw [ht]

/-- Draining a queue that holds only individual removals, none aimed at
`T`, while every active state other than `T` has such a removal pending,
settles with exactly `T` attached. -/
theorem flushKills (bundle : List Cid) :
    ∀ (q : List Cmd) (w : WState) (T : Cid),
      w.queue = q →
      w.info.states_on_entity.Nodup →
      T ∈ w.info.states_on_entity →
      (∀ x, x ∈ w.att ↔ x ∈ w.info.states_on_entity) →
      (∀ c ∈ q, ∃ x, c = Cmd.removeById x ∧ x ≠ T) →
      (∀ u ∈ w.info.states_on_entity, u ≠ T → Cmd.removeById u ∈ q) →
      ∃ n, (flushFuel bundle n w).queue = [] ∧ (flushFuel bundle n w).att = {T} ∧
        (flushFuel bundle n w).info.states_on_entity = [T] ∧
        (flushFuel bundle n w).sup = w.sup := by
  intro q
  induction q with
  | nil =>
    intro w T hq hnd hT hattiff _ hcov
    have hall : ∀ u ∈ w.info.states_on_entity, u = T := by
      intro u hu
      by_contra hut
      cases hcov u hu hut
    have hlist : w.info.states_on_entity = [T] := nodup_all_eq_singleton hnd hT hall
    refine ⟨0, hq, ?_, hlist, rfl⟩
    show w.att = {T}
    ext x
    rw [Finset.mem_singleton]
    rw [hattiff x, hlist, List.mem_singleton]
  | cons c q ih =>
    intro w T hq hnd hT hattiff hsh hcov
    obtain ⟨x, rfl, hxT⟩ := hsh c (List.mem_cons_self _ _)
    have hstep : execStep bundle w = detachStateRaw { w with queue := q } x := by
      rw [execStep_of_queue_cons hq]
      rfl
    by_cases hx : x ∈ w.att
    · have hxl : x ∈ w.info.states_on_entity := (hattiff x).mp hx
      have hTrm : T ∈ removeByIdList w.info.states_on_entity x :=
        (mem_removeByIdList hnd).mpr ⟨hT, Ne.symm hxT⟩
      have hrm_ne : removeByIdList w.info.states_on_entity x ≠ [] :=
        List.ne_nil_of_mem hTrm
      have hw2 : detachStateRaw { w with queue := q } x =
          { att := w.att.erase x
            sup := w.sup
            info := { state_ids := w.info.state_ids
                      states_on_entity := removeByIdList w.info.states_on_entity x }
            queue := q } := by
        rw [detachStateRaw_of_mem (show x ∈ WState.att { w with queue := q } from hx)]
        simp only [on_remove_hook_state_fst, on_remove_hook_state_snd]
        rw [if_neg hrm_ne]
        simp [SuperstateInfo.remove_by_id]
      obtain ⟨n, hn1, hn2, hn3, hn4⟩ := ih
        { att := w.att.erase x
          sup := w.sup
          info := { state_ids := w.info.state_ids
                    states_on_entity := removeByIdList w.info.states_on_entity x }
          queue := q } T rfl
        (removeByIdList_nodup hnd x) hTrm
        (by
          intro y
          dsimp only
          rw [Finset.mem_erase, mem_removeByIdList hnd, hattiff y]
          tauto)
        (fun d hd => hsh d (List.mem_cons_of_mem _ hd))
        (by
          intro u hu hut
          dsimp only at hu
          obtain ⟨hu1, hu2⟩ := (mem_removeByIdList hnd).mp hu
          have h3 := hcov u hu1 hut
          rcases List.mem_cons.mp h3 with h4 | h4
          · simp only [Cmd.removeById.injEq] at h4
            exact absurd h4 hu2
          · exact h4)
      refine ⟨n + 1, ?_, ?_, ?_, ?_⟩
      · show (flushFuel bundle n (execStep bundle w)).queue = []
        rw [hstep, hw2]
        exact hn1
      · show (flushFuel bundle n (execStep bundle w)).att = {T}
        rw [hstep, hw2]
        exact hn2
      · show (flushFuel bundle n (execStep bundle w)).info.states_on_entity = [T]
        rw [hstep, hw2]
        exact hn3
      · show (flushFuel bundle n (execStep bundle w)).sup = w.sup
        rw [hstep, hw2]
        exact hn4
    · have hw2 : detachStateRaw { w with queue := q } x = { w with queue := q } :=
        detachStateRaw_of_not_mem (show x ∉ WState.att { w with queue := q } from hx)
      obtain ⟨n, hn1, hn2, hn3, hn4⟩ := ih { w with queue := q } T rfl hnd hT
        (fun y => hattiff y)
        (fun d hd => hsh d (List.mem_cons_of_mem _ hd))
        (by
          intro u hu hut
          have h3 := hcov u hu hut
          rcases List.mem_cons.mp h3 with h4 | h4
          · simp only [Cmd.removeById.injEq] at h4
            subst h4
            exact absurd ((hattiff u).mpr hu) hx
          · exact h4)
      refine ⟨n + 1, ?_, ?_, ?_, ?_⟩
      · show (flushFuel bundle n (execStep bundle w)).queue = []
        rw [hstep, hw2]
        exact hn1
      · show (flushFuel bundle n (execStep bundle w)).att = {T}
        rw [hstep, hw2]
        exact hn2
      · show (flushFuel bundle n (execStep bundle w)).info.states_on_entity = [T]
        rw [hstep, hw2]
        exact hn3
      · show (flushFuel bundle n (execStep bundle w)).sup = w.sup
        rw [hstep, hw2]
        exact hn4

/-- Flushing a queue that starts with inserts of fresh, pairwise-distinct
states (followed by stray removals aimed at other, currently attached
states) settles with exactly the last inserted state attached. -/
theorem flushInserts (bundle : List Cid) :
    ∀ (ss : List Cid) (w : WState) (K : List Cmd) (hne : ss ≠ []),
      ss.Nodup →
      (∀ s ∈ ss, s ∉ w.att) →
      w.queue = ss.map Cmd.insertState ++ K →
      (∀ c ∈ K, ∃ x, c = Cmd.removeById x ∧ x ∈ w.att ∧ x ∉ ss) →
      w.info.states_on_entity.Nodup →
      (∀ x, x ∈ w.att ↔ x ∈ w.info.states_on_entity) →
      ∃ n, (flushFuel bundle n w).queue = [] ∧
        (flushFuel bundle n w).att = {ss.getLast hne} ∧
        (flushFuel bundle n w).info.states_on_entity = [ss.getLast hne] := by
  intro ss
  induction ss with
  | nil =>
    intro w K hne
    exact absurd rfl hne
  | cons s ss ih =>
    intro w K hne hnd hsatt hq hK hlnd hattiff
    have hs : s ∉ w.att := hsatt s (List.mem_cons_self _ _)
    have hsl : s ∉ w.info.states_on_entity := fun hc => hs ((hattiff s).mpr hc)
    have hstep : execStep bundle w =
        attachStateRaw bundle { w with queue := ss.map Cmd.insertState ++ K } s := by
      rw [execStep_of_queue_cons (show w.queue =
        Cmd.insertState s :: (ss.map Cmd.insertState ++ K) by rw [hq]; rfl)]
      rfl
    have hs1 : s ∉ WState.att { w with queue := ss.map Cmd.insertState ++ K } := hs
    have hcmds : (on_add_hook_state bundle w.info s).2 =
        w.info.states_on_entity.map Cmd.removeById := on_add_hook_state_snd_of_not_mem hsl
    have hatt2 : (attachStateRaw bundle { w with queue := ss.map Cmd.insertState ++ K } s).att
        = insert s w.att := by
      rw [attachStateRaw_of_not_mem hs1]
    have hlist2 : (attachStateRaw bundle
        { w with queue := ss.map Cmd.insertState ++ K } s).info.states_on_entity
        = w.info.states_on_entity ++ [s] := by
      rw [attachStateRaw_of_not_mem hs1]
      exact on_add_hook_state_fst_states bundle w.info s
    have hq2 : (attachStateRaw bundle
        { w with queue := ss.map Cmd.insertState ++ K } s).queue
        = ss.map Cmd.insertState ++ (K ++ w.info.states_on_entity.map Cmd.removeById) := by
      rw [attachStateRaw_of_not_mem hs1]
      dsimp only
      rw [hcmds, List.append_assoc]
    have hnd2 : (attachStateRaw bundle
        { w with queue := ss.map Cmd.insertState ++ K } s).info.states_on_entity.Nodup := by
      rw [hlist2]
      simp only [List.nodup_append, List.nodup_singleton]
      exact ⟨hlnd, trivial, by simpa [List.disjoint_singleton] using hsl⟩
    have hattiff2 : ∀ x, x ∈ (attachStateRaw bundle
        { w with queue := ss.map Cmd.insertState ++ K } s).att ↔
        x ∈ (attachStateRaw bundle
        { w with queue := ss.map Cmd.insertState ++ K } s).info.states_on_entity := by
      intro x
      rw [hatt2, hlist2, Finset.mem_insert, List.mem_append, List.mem_singleton, hattiff x]
      tauto
    have hKsh : ∀ c ∈ K ++ w.info.states_on_entity.map Cmd.removeById,
        ∃ x, c = Cmd.removeById x ∧ x ∈ insert s w.att ∧ x ∉ ss ∧ x ≠ s := by
      intro c hc
      rcases List.mem_append.mp hc with hc | hc
      · obtain ⟨x, rfl, hx1, hx2⟩ := hK c hc
        refine ⟨x, rfl, Finset.mem_insert_of_mem hx1, ?_, ?_⟩
        · exact fun h2 => hx2 (List.mem_cons_of_mem _ h2)
        · exact fun h2 => hx2 (h2 ▸ List.mem_cons_self _ _)
      · obtain ⟨x, hx, rfl⟩ := List.mem_map.mp hc
        have hxa : x ∈ w.att := (hattiff x).mpr hx
        refine ⟨x, rfl, Finset.mem_insert_of_mem hxa, ?_, ?_⟩
        · exact fun h2 => hsatt x (List.mem_cons_of_mem _ h2) hxa
        · exact fun h2 => hs (h2 ▸ hxa)
    by_cases hss : ss = []
    · subst hss
      have hT : s ∈ (attachStateRaw bundle
          { w with queue := [].map Cmd.insertState ++ K } s).info.states_on_entity := by
        rw [hlist2]
        exact List.mem_append_right _ (List.mem_singleton_self _)
      have hq2b : (attachStateRaw bundle
          { w with queue := [].map Cmd.insertState ++ K } s).queue
          = K ++ w.info.states_on_entity.map Cmd.removeById := by
        rw [hq2]
        rfl
      obtain ⟨n, hn1, hn2, hn3, _⟩ := flushKills bundle
        (K ++ w.info.states_on_entity.map Cmd.removeById)
        (attachStateRaw bundle { w with queue := [].map Cmd.insertState ++ K } s)
        s hq2b hnd2 hT hattiff2
        (by
          intro c hc
          obtain ⟨x, rfl, _, _, hx4⟩ := hKsh c hc
          exact ⟨x, rfl, hx4⟩)
        (by
          intro u hu hus
          rw [hlist2] at hu
          rcases List.mem_append.mp hu with hu | hu
          · exact List.mem_append_right _ (List.mem_map_of_mem Cmd.removeById hu)
          · exact absurd (List.mem_singleton.mp hu) hus)
      have hlast : (s :: ([] : List Cid)).getLast hne = s := rfl
      rw [hlast]
      refine ⟨n + 1, ?_, ?_, ?_⟩
      · show (flushFuel bundle n (execStep bundle w)).queue = []
        rw [hstep]
        exact hn1
      · show (flushFuel bundle n (execStep bundle w)).att = {s}
        rw [hstep]
        exact hn2
      · show (flushFuel bundle n (execStep bundle w)).info.states_on_entity = [s]
        rw [hstep]
        exact hn3
    · have hnd3 : ss.Nodup := (List.nodup_cons.mp hnd).2
      have hsns : s ∉ ss := (List.nodup_cons.mp hnd).1
      obtain ⟨n, hn1, hn2, hn3⟩ := ih
        (attachStateRaw bundle { w with queue := ss.map Cmd.insertState ++ K } s)
        (K ++ w.info.states_on_entity.map Cmd.removeById) hss hnd3
        (by
          intro u hu
          rw [hatt2, Finset.mem_insert]
          rintro (rfl | hua)
          · exact hsns hu
          · exact hsatt u (List.mem_cons_of_mem _ hu) hua)
        hq2
        (by
          intro c hc
          obtain ⟨x, rfl, hx1, hx2, _⟩ := hKsh c hc
          exact ⟨x, rfl, hatt2 ▸ hx1, hx2⟩)
        hnd2 hattiff2
      have hlast : (s :: ss).getLast hne = ss.getLast hss := List.getLast_cons hss
      rw [hlast]
      refine ⟨n + 1, ?_, ?_, ?_⟩
      · show (flushFuel bundle n (execStep bundle w)).queue = []
        rw [hstep]
        exact hn1
      · show (flushFuel bundle n (execStep bundle w)).att = {ss.getLast hss}
        rw [hstep]
        exact hn2
      · show (flushFuel bundle n (execStep bundle w)).info.states_on_entity
          = [ss.getLast hss]
        rw [hstep]
        exact hn3

theorem attachSuperRaw_info (w : WState) : (attachSuperRaw w).info = w.info := by
  unfold attachSuperRaw
  split <;> rfl

theorem attachSuperRaw_att (w : WState) : (attachSuperRaw w).att = w.att := by
  unfold attachSuperRaw
  split <;> rfl

theorem detachSuperRaw_state_ids (w : WState) :
    (detachSuperRaw w).info.state_ids = w.info.state_ids := by
  unfold detachSuperRaw
  split <;> rfl

theorem fold_detach_state_ids (w : WState) (ls : List Cid) :
    (ls.foldl detachStateRaw w).info.state_ids = w.info.state_ids := by
  induction ls generalizing w with
  | nil => rfl
  | cons a t ih =>
    show (t.foldl detachStateRaw (detachStateRaw w a)).info.state_ids = _
    rw [ih, detachStateRaw_state_ids]

theorem attachStateRaw_state_ids_of_ne {bundle : List Cid} {w : WState} {s : Cid}
    (h : w.info.state_ids ≠ []) :
    (attachStateRaw bundle w s).info.state_ids = w.info.state_ids := by
  by_cases hs : s ∈ w.att
  · rw [attachStateRaw_of_mem hs]
  · rw [attachStateRaw_of_not_mem hs]
    dsimp only
    rw [on_add_hook_state_fst_ids,
      if_neg (fun hc => h (List.length_eq_zero.mp hc))]

/-! ### The registration routine

The host store allows exactly one hook pair per component identity
(spec section 6).  `busy` is the set of identities that already have a
hook pair installed; installing on a busy identity fails, and the routine
reports that identity (`HookBusyError`) without rolling back hooks it
already installed within the same call. -/

/-- The loop of `register_hooks` over the state identities: for each one in
order, fail with that identity if its hook slot is busy, otherwise install
the attach/detach hook pair (making the slot busy) and continue. -/
def installLoop (busy : List Cid) : List Cid → List Cid × Option Cid
  | [] => (busy, none)
  | id :: rest => if id ∈ busy then (busy, some id) else installLoop (id :: busy) rest

/-- `register_hooks` from the source: install hook pairs on every state
identity and then on the superstate identity, failing with the first
identity whose hook slot is already taken.  Returns the updated busy set
and `some offending_id` on failure (`HookBusyError`), `none` on success. -/
def register_hooks (super_id : Cid) (states_ids : List Cid) (busy : List Cid) :
    List Cid × Option Cid :=
  match installLoop busy states_ids with
  | (busy1, some id) => (busy1, some id)
  | (busy1, none) =>
      if super_id ∈ busy1 then (busy1, some super_id) else (super_id :: busy1, none)

theorem installLoop_busy_subset : ∀ (ids busy : List Cid) (x : Cid),
    x ∈ busy → x ∈ (installLoop busy ids).1
  | [], _, _, hx => hx
  | id :: rest, busy, x, hx => by
    unfold installLoop
    by_cases h : id ∈ busy
    · rw [if_pos h]
      exact hx
    · rw [if_neg h]
      exact installLoop_busy_subset rest (id :: busy) x (List.mem_cons_of_mem _ hx)

theorem installLoop_fst_subset : ∀ (ids busy : List Cid) (x : Cid),
    x ∈ (installLoop busy ids).1 → x ∈ ids ∨ x ∈ busy
  | [], _, _, hx => Or.inr hx
  | id :: rest, busy, x, hx => by
    unfold installLoop at hx
    by_cases h : id ∈ busy
    · rw [if_pos h] at hx
      exact Or.inr hx
    · rw [if_neg h] at hx
      rcases installLoop_fst_subset rest (id :: busy) x hx with h2 | h2
      · exact Or.inl (List.mem_cons_of_mem _ h2)
      · rcases List.mem_cons.mp h2 with rfl | h3
        · exact Or.inl (List.mem_cons_self _ _)
        · exact Or.inr h3

theorem installLoop_none_of : ∀ (ids busy : List Cid), ids.Nodup →
    (∀ id ∈ ids, id ∉ busy) →
    (installLoop busy ids).2 = none ∧ ∀ id ∈ ids, id ∈ (installLoop busy ids).1
  | [], busy, _, _ => ⟨rfl, by simp⟩
  | id :: rest, busy, hnd, hfree => by
    have h : id ∉ busy := hfree id (List.mem_cons_self _ _)
    unfold installLoop
    rw [if_neg h]
    have hnd2 : rest.Nodup := (List.nodup_cons.mp hnd).2
    have hfree2 : ∀ i ∈ rest, i ∉ id :: busy := by
      intro i hi
      rw [List.mem_cons]
      rintro (rfl | h2)
      · exact (List.nodup_cons.mp hnd).1 hi
      · exact hfree i (List.mem_cons_of_mem _ hi) h2
    obtain ⟨h1, h2⟩ := installLoop_none_of rest (id :: busy) hnd2 hfree2
    refine ⟨h1, ?_⟩
    intro i hi
    rcases List.mem_cons.mp hi with rfl | hi2
    · exact installLoop_busy_subset rest (i :: busy) i (List.mem_cons_self _ _)
    · exact h2 i hi2

theorem installLoop_none_mp : ∀ (ids busy : List Cid),
    (installLoop busy ids).2 = none → ∀ id ∈ ids, id ∉ busy
  | [], _, _, _, hid => by cases hid
  | id :: rest, busy, hnone, i, hi => by
    unfold installLoop at hnone
    by_cases h : id ∈ busy
    · rw [if_pos h] at hnone
      cases hnone
    · rw [if_neg h] at hnone
      rcases List.mem_cons.mp hi with rfl | hi2
      · exact h
      · intro hib
        exact installLoop_none_mp rest (id :: busy) hnone i hi2
          (List.mem_cons_of_mem _ hib)

theorem installLoop_some : ∀ (ids busy : List Cid) (j : Cid), ids.Nodup →
    (installLoop busy ids).2 = some j → j ∈ ids ∧ j ∈ busy
  | [], _, _, _, hsome => by cases hsome
  | id :: rest, busy, j, hnd, hsome => by
    unfold installLoop at hsome
    by_cases h : id ∈ busy
    · rw [if_pos h] at hsome
      cases hsome
      exact ⟨List.mem_cons_self _ _, h⟩
    · rw [if_neg h] at hsome
      obtain ⟨h1, h2⟩ := installLoop_some rest (id :: busy) j (List.nodup_cons.mp hnd).2 hsome
      refine ⟨List.mem_cons_of_mem _ h1, ?_⟩
      rcases List.mem_cons.mp h2 with rfl | h3
      · exact absurd h1 (List.nodup_cons.mp hnd).1
      · exact h3

theorem installLoop_some_partial : ∀ (ids busy : List Cid) (j : Cid),
    (installLoop busy ids).2 = some j →
    ∃ pre suf, ids = pre ++ j :: suf ∧ ∀ p ∈ pre, p ∈ (installLoop busy ids).1
  | [], _, _, hsome => by cases hsome
  | id :: rest, busy, j, hsome => by
    unfold installLoop at hsome ⊢
    by_cases h : id ∈ busy
    · rw [if_pos h] at hsome ⊢
      cases hsome
      exact ⟨[], rest, rfl, by simp⟩
    · rw [if_neg h] at hsome ⊢
      obtain ⟨pre, suf, heq, hpre⟩ := installLoop_some_partial rest (id :: busy) j hsome
      refine ⟨id :: pre, suf, by rw [heq]; rfl, ?_⟩
      intro p hp
      rcases List.mem_cons.mp hp with rfl | hp2
      · exact installLoop_busy_subset rest (p :: busy) p (List.mem_cons_self _ _)
      · exact hpre p hp2

/-! ### Claim theorems -/

theorem reachable_init_load (bundle : List Cid) (cs : List Cmd)
    (hcs : ∀ c ∈ cs, cmdOk bundle c) :
    Reachable bundle { initW with queue := cs } :=
  reachable_load Relation.ReflTransGen.refl cs hcs

/-- Claim C2: in every reachable settled state (all deferred commands
flushed), the category attribute is present on the entity iff
`states_on_entity` is non-empty, equivalently iff at least one state
component of the bundle is attached. -/
theorem category_iff_active_states (bundle : List Cid) (w : WState)
    (hw : Reachable bundle w) (hq : w.queue = []) :
    (w.sup = true ↔ w.info.states_on_entity ≠ []) ∧
    (w.sup = true ↔ w.att ≠ ∅) := by
  have hinv := reachable_inv hw
  have h1 := settled_sup_iff hinv hq
  refine ⟨h1, h1.trans ?_⟩
  constructor
  · intro hne hempty
    obtain ⟨x, hx⟩ := List.exists_mem_of_ne_nil _ hne
    have h2 := (settled_att_iff hinv hq x).mpr hx
    rw [hempty] at h2
    cases h2
  · intro hne hnil
    apply hne
    apply Finset.eq_empty_of_forall_not_mem
    intro x hx
    have h2 := (settled_att_iff hinv hq x).mp hx
    rw [hnil] at h2
    cases h2

/-- Witness for C2, at the settled state reached by attaching state 1. -/
theorem category_iff_active_states_witness :
    ((flushFuel [1, 2] 2 { initW with queue := [Cmd.insertState 1] }).sup = true ↔
      (flushFuel [1, 2] 2
        { initW with queue := [Cmd.insertState 1] }).info.states_on_entity ≠ []) ∧
    ((flushFuel [1, 2] 2 { initW with queue := [Cmd.insertState 1] }).sup = true ↔
      (flushFuel [1, 2] 2 { initW with queue := [Cmd.insertState 1] }).att ≠ ∅) :=
  category_iff_active_states [1, 2] _
    (reachable_flushFuel (reachable_init_load [1, 2] [Cmd.insertState 1] (by decide)) 2)
    (by decide)

/-- Claim C9: in every reachable state, mid-transaction states included,
`states_on_entity` holds no duplicate state identity. -/
theorem states_on_entity_nodup (bundle : List Cid) (w : WState)
    (hw : Reachable bundle w) : w.info.states_on_entity.Nodup :=
  (reachable_inv hw).nodup

/-- Witness for C9, at a mid-transaction state in which two states are
simultaneously tracked (the eviction of the first is still queued). -/
theorem states_on_entity_nodup_witness :
    (flushFuel [1, 2, 3] 2 { initW with queue :=
      [Cmd.insertState 1, Cmd.insertState 2] }).info.states_on_entity.Nodup :=
  states_on_entity_nodup [1, 2, 3] _
    (reachable_flushFuel (reachable_init_load [1, 2, 3]
      [Cmd.insertState 1, Cmd.insertState 2] (by decide)) 2)

/-- Claim C8: `state_ids` is populated at most once.  In every reachable
state it is either still empty or exactly the declared bundle; the
on-attach-state hook fills it with the declared bundle precisely when it
finds it empty and leaves it alone otherwise; and once non-empty, no step
of the system ever changes it. -/
theorem state_ids_write_once (bundle : List Cid) :
    (∀ w : WState, Reachable bundle w →
      w.info.state_ids = [] ∨ w.info.state_ids = bundle) ∧
    (∀ (info : SuperstateInfo) (s : Cid), info.state_ids = [] →
      (on_add_hook_state bundle info s).1.state_ids = bundle) ∧
    (∀ (info : SuperstateInfo) (s : Cid), info.state_ids ≠ [] →
      (on_add_hook_state bundle info s).1.state_ids = info.state_ids) ∧
    (∀ w w2 : WState, w.info.state_ids ≠ [] → Step bundle w w2 →
      w2.info.state_ids = w.info.state_ids) := by
  refine ⟨?_, ?_, ?_, ?_⟩
  · intro w hw
    exact (reachable_inv hw).ids_ok
  · intro info s h
    rw [on_add_hook_state_fst_ids, if_pos (by rw [h]; rfl)]
  · intro info s h
    rw [on_add_hook_state_fst_ids,
      if_neg (fun hc => h (List.length_eq_zero.mp hc))]
  · intro w w2 h hstep
    cases hstep with
    | user c hc => rfl
    | exec c rest hq =>
      cases c with
      | removeById s => exact detachStateRaw_state_ids _ s
      | removeSuper => exact detachSuperRaw_state_ids _
      | removeStates => exact fold_detach_state_ids _ bundle
      | insertState s => exact attachStateRaw_state_ids_of_ne h
      | insertSuper =>
        show (attachSuperRaw { w with queue := rest }).info.state_ids = w.info.state_ids
        rw [attachSuperRaw_info]

/-- Witness for C8: the lazily filled registry after one attach, and the
two fill behaviours of the hook at concrete records. -/
theorem state_ids_write_once_witness :
    ((flushFuel [1, 2, 3] 2 { initW with queue := [Cmd.insertState 1] }).info.state_ids = []
      ∨ (flushFuel [1, 2, 3] 2
          { initW with queue := [Cmd.insertState 1] }).info.state_ids = [1, 2, 3]) ∧
    (on_add_hook_state [1, 2, 3]
      { state_ids := [], states_on_entity := [] } 1).1.state_ids = [1, 2, 3] ∧
    (on_add_hook_state [1, 2, 3]
      { state_ids := [9], states_on_entity := [] } 1).1.state_ids = [9] := by
  have h := state_ids_write_once [1, 2, 3]
  exact ⟨h.1 _ (reachable_flushFuel
      (reachable_init_load [1, 2, 3] [Cmd.insertState 1] (by decide)) 2),
    h.2.1 _ 1 rfl, h.2.2.1 _ 1 (by decide)⟩

/-- Claim C3: the on-attach-state hook appends the attached identity to
`states_on_entity`, and schedules through the deferred queue one removal
for exactly each identity in `states_on_entity` other than the new one; it
issues only removal commands and performs no immediate removal itself (an
attach never shrinks the attached set). -/
theorem on_add_hook_state_spec (bundle : List Cid) (info : SuperstateInfo) (s : Cid) :
    (on_add_hook_state bundle info s).1.states_on_entity
      = info.states_on_entity ++ [s] ∧
    (∀ x, Cmd.removeById x ∈ (on_add_hook_state bundle info s).2 ↔
      x ∈ info.states_on_entity ∧ x ≠ s) ∧
    (∀ c ∈ (on_add_hook_state bundle info s).2,
      ∃ x, c = Cmd.removeById x ∧ x ≠ s) ∧
    (∀ w : WState, w.att ⊆ (attachStateRaw bundle w s).att) := by
  refine ⟨on_add_hook_state_fst_states bundle info s,
    fun x => mem_on_add_hook_state_snd bundle info s x, ?_, ?_⟩
  · intro c hc
    obtain ⟨x, rfl, _, hxs⟩ := on_add_hook_state_snd_shape bundle info s c hc
    exact ⟨x, rfl, hxs⟩
  · intro w x hx
    by_cases h : s ∈ w.att
    · rw [attachStateRaw_of_mem h]
      exact hx
    · rw [attachStateRaw_of_not_mem h]
      exact Finset.mem_insert_of_mem hx

/-- Witness for C3, attaching state 6 while 5 is tracked: 6 is appended,
and a deferred removal targets 5 but not 6. -/
theorem on_add_hook_state_spec_witness :
    (on_add_hook_state [5, 6, 7]
      { state_ids := [5, 6, 7], states_on_entity := [5] } 6).1.states_on_entity = [5, 6] ∧
    Cmd.removeById 5 ∈ (on_add_hook_state [5, 6, 7]
      { state_ids := [5, 6, 7], states_on_entity := [5] } 6).2 ∧
    Cmd.removeById 6 ∉ (on_add_hook_state [5, 6, 7]
      { state_ids := [5, 6, 7], states_on_entity := [5] } 6).2 := by
  have h := on_add_hook_state_spec [5, 6, 7]
    { state_ids := [5, 6, 7], states_on_entity := [5] } 6
  refine ⟨h.1, (h.2.1 5).mpr ⟨by decide, by decide⟩, ?_⟩
  intro hc
  exact ((h.2.1 6).mp hc).2 rfl

/-- Claim C4: the on-detach-state hook removes the detached identity from
`states_on_entity`, leaving the record untouched when the identity is not
tracked (silent no-op), and schedules removal of the category component
exactly when the working set has become empty; `state_ids` is never
touched. -/
theorem on_remove_hook_state_spec (info : SuperstateInfo) (s : Cid)
    (hnd : info.states_on_entity.Nodup) :
    (∀ x, x ∈ (on_remove_hook_state info s).1.states_on_entity ↔
      x ∈ info.states_on_entity ∧ x ≠ s) ∧
    (s ∉ info.states_on_entity → (on_remove_hook_state info s).1 = info) ∧
    ((on_remove_hook_state info s).1.states_on_entity = [] →
      (on_remove_hook_state info s).2 = [Cmd.removeSuper]) ∧
    ((on_remove_hook_state info s).1.states_on_entity ≠ [] →
      (on_remove_hook_state info s).2 = []) ∧
    (on_remove_hook_state info s).1.state_ids = info.state_ids := by
  refine ⟨?_, ?_, ?_, ?_, rfl⟩
  · intro x
    exact mem_removeByIdList hnd
  · intro h
    show { info with states_on_entity := removeByIdList info.states_on_entity s } = info
    rw [removeByIdList_of_not_mem h]
  · intro h
    rw [on_remove_hook_state_snd,
      if_pos (show removeByIdList info.states_on_entity s = [] from h)]
  · intro h
    rw [on_remove_hook_state_snd,
      if_neg (show ¬removeByIdList info.states_on_entity s = [] from h)]

/-- Witness for C4: detaching 2 from working set `[2, 3]` keeps 3, drops 2,
schedules nothing; detaching the last state schedules the category
removal; detaching an untracked identity is a no-op on the record. -/
theorem on_remove_hook_state_spec_witness :
    (3 ∈ (on_remove_hook_state
      { state_ids := [2, 3], states_on_entity := [2, 3] } 2).1.states_on_entity ∧
     2 ∉ (on_remove_hook_state
      { state_ids := [2, 3], states_on_entity := [2, 3] } 2).1.states_on_entity ∧
     (on_remove_hook_state
      { state_ids := [2, 3], states_on_entity := [2, 3] } 2).2 = []) ∧
    (on_remove_hook_state
      { state_ids := [2, 3], states_on_entity := [3] } 3).2 = [Cmd.removeSuper] ∧
    (on_remove_hook_state
      { state_ids := [2, 3], states_on_entity := [3] } 2).1
      = { state_ids := [2, 3], states_on_entity := [3] } := by
  have h1 := on_remove_hook_state_spec
    { state_ids := [2, 3], states_on_entity := [2, 3] } 2 (by decide)
  have h2 := on_remove_hook_state_spec
    { state_ids := [2, 3], states_on_entity := [3] } 3 (by decide)
  have h3 := on_remove_hook_state_spec
    { state_ids := [2, 3], states_on_entity := [3] } 2 (by decide)
  refine ⟨⟨(h1.1 3).mpr ⟨by decide, by decide⟩, ?_, h1.2.2.2.1 (by decide)⟩,
    h2.2.2.1 (by decide), h3.2.1 (by decide)⟩
  intro hc
  exact ((h1.1 2).mp hc).2 rfl

/-- Claim C5: the on-attach-category hook schedules removal of the category
component exactly when `states_on_entity` is empty at that moment and
schedules nothing otherwise; it does not modify the record and removes no
component immediately. -/
theorem on_add_superstate_spec (info : SuperstateInfo) :
    (info.states_on_entity = [] → on_add_superstate info = [Cmd.removeSuper]) ∧
    (info.states_on_entity ≠ [] → on_add_superstate info = []) ∧
    (∀ w : WState, (attachSuperRaw w).info = w.info ∧ (attachSuperRaw w).att = w.att) := by
  refine ⟨on_add_superstate_of_nil, on_add_superstate_of_ne_nil, ?_⟩
  intro w
  exact ⟨attachSuperRaw_info w, attachSuperRaw_att w⟩

/-- Witness for C5 at an empty and at a non-empty working set. -/
theorem on_add_superstate_spec_witness :
    on_add_superstate { state_ids := [1, 2], states_on_entity := [] }
      = [Cmd.removeSuper] ∧
    on_add_superstate { state_ids := [1, 2], states_on_entity := [1] } = [] := by
  have h1 := on_add_superstate_spec { state_ids := [1, 2], states_on_entity := [] }
  have h2 := on_add_superstate_spec { state_ids := [1, 2], states_on_entity := [1] }
  exact ⟨h1.1 rfl, h2.2.1 (by decide)⟩

/-- Claim C6: the on-detach-category hook clears `states_on_entity` (but
not `state_ids`) and schedules removal of the whole declared bundle; when
that deferred command applies, every state component of the declared
bundle is detached from the entity, whether or not it was tracked as
active. -/
theorem on_remove_superstate_spec (bundle : List Cid) (info : SuperstateInfo) :
    (on_remove_superstate info).1.states_on_entity = [] ∧
    (on_remove_superstate info).1.state_ids = info.state_ids ∧
    (on_remove_superstate info).2 = [Cmd.removeStates] ∧
    (∀ (w : WState) (s : Cid), s ∈ bundle →
      s ∉ (applyCmd bundle w Cmd.removeStates).att) := by
  refine ⟨rfl, rfl, rfl, ?_⟩
  intro w s hs
  show s ∉ (bundle.foldl detachStateRaw w).att
  rw [fold_detach_att, Finset.mem_sdiff]
  rintro ⟨_, h2⟩
  exact h2 (List.mem_toFinset.mpr hs)

/-- Witness for C6: an untracked but attached state (2) is removed as well
when the bundle removal applies. -/
theorem on_remove_superstate_spec_witness :
    (on_remove_superstate { state_ids := [1, 2], states_on_entity := [1] }
      ).1.states_on_entity = [] ∧
    (on_remove_superstate { state_ids := [1, 2], states_on_entity := [1] }
      ).2 = [Cmd.removeStates] ∧
    2 ∉ (applyCmd [1, 2]
      { att := {1, 2}, sup := true
        info := { state_ids := [1, 2], states_on_entity := [1] }, queue := [] }
      Cmd.removeStates).att := by
  have h := on_remove_superstate_spec [1, 2]
    { state_ids := [1, 2], states_on_entity := [1] }
  exact ⟨h.1, h.2.2.1, h.2.2.2
    { att := {1, 2}, sup := true
      info := { state_ids := [1, 2], states_on_entity := [1] }, queue := [] }
    2 (by decide)⟩

/-- Claim C7: registration succeeds exactly when no involved identity's
hook slot is busy; on failure it reports a busy identity from among the
involved ones; hooks never get uninstalled by the call, and in particular
the state identities processed before the offending one stay installed
(no rollback). -/
theorem register_hooks_spec (super_id : Cid) (states_ids busy : List Cid)
    (hnd : (super_id :: states_ids).Nodup) :
    ((register_hooks super_id states_ids busy).2 = none ↔
      ∀ id ∈ super_id :: states_ids, id ∉ busy) ∧
    (∀ j, (register_hooks super_id states_ids busy).2 = some j →
      j ∈ busy ∧ (j = super_id ∨ j ∈ states_ids)) ∧
    (∀ b ∈ busy, b ∈ (register_hooks super_id states_ids busy).1) ∧
    ((register_hooks super_id states_ids busy).2 = none →
      ∀ id ∈ super_id :: states_ids, id ∈ (register_hooks super_id states_ids busy).1) ∧
    (∀ j, (register_hooks super_id states_ids busy).2 = some j → j ∈ states_ids →
      ∃ pre suf, states_ids = pre ++ j :: suf ∧
        ∀ p ∈ pre, p ∈ (register_hooks super_id states_ids busy).1) := by
  have hnds : states_ids.Nodup := (List.nodup_cons.mp hnd).2
  have hsns : super_id ∉ states_ids := (List.nodup_cons.mp hnd).1
  cases hloop : installLoop busy states_ids with
  | mk busy1 res =>
    have hfst : (installLoop busy states_ids).1 = busy1 := by rw [hloop]
    have hsnd : (installLoop busy states_ids).2 = res := by rw [hloop]
    cases res with
    | some j =>
      have hreg : register_hooks super_id states_ids busy = (busy1, some j) := by
        unfold register_hooks
        rw [hloop]
      obtain ⟨hj1, hj2⟩ := installLoop_some states_ids busy j hnds hsnd
      refine ⟨?_, ?_, ?_, ?_, ?_⟩
      · rw [hreg]
        constructor
        · intro h2
          cases h2
        · intro hall
          exact absurd hj2 (hall j (List.mem_cons_of_mem _ hj1))
      · intro j0 hj0
        rw [hreg] at hj0
        cases hj0
        exact ⟨hj2, Or.inr hj1⟩
      · intro b hb
        rw [hreg]
        rw [← hfst]
        exact installLoop_busy_subset states_ids busy b hb
      · intro h2
        rw [hreg] at h2
        cases h2
      · intro j0 hj0 hj0s
        rw [hreg] at hj0
        cases hj0
        obtain ⟨pre, suf, heq, hpre⟩ := installLoop_some_partial states_ids busy j hsnd
        refine ⟨pre, suf, heq, ?_⟩
        intro p hp
        rw [hreg, ← hfst]
        exact hpre p hp
    | none =>
      have hfree : ∀ id ∈ states_ids, id ∉ busy := installLoop_none_mp states_ids busy hsnd
      by_cases hsb : super_id ∈ busy1
      · have hreg : register_hooks super_id states_ids busy = (busy1, some super_id) := by
          unfold register_hooks
          rw [hloop]
          dsimp only
          rw [if_pos hsb]
        have hsbusy : super_id ∈ busy := by
          rcases installLoop_fst_subset states_ids busy super_id (hfst ▸ hsb) with h2 | h2
          · exact absurd h2 hsns
          · exact h2
        refine ⟨?_, ?_, ?_, ?_, ?_⟩
        · rw [hreg]
          constructor
          · intro h2
            cases h2
          · intro hall
            exact absurd hsbusy (hall super_id (List.mem_cons_self _ _))
        · intro j0 hj0
          rw [hreg] at hj0
          cases hj0
          exact ⟨hsbusy, Or.inl rfl⟩
        · intro b hb
          rw [hreg, ← hfst]
          exact installLoop_busy_subset states_ids busy b hb
        · intro h2
          rw [hreg] at h2
          cases h2
        · intro j0 hj0 hj0s
          rw [hreg] at hj0
          cases hj0
          exact absurd hj0s hsns
      · have hreg : register_hooks super_id states_ids busy
            = (super_id :: busy1, none) := by
          unfold register_hooks
          rw [hloop]
          dsimp only
          rw [if_neg hsb]
        obtain ⟨_, hinst⟩ := installLoop_none_of states_ids busy hnds hfree
        refine ⟨?_, ?_, ?_, ?_, ?_⟩
        · rw [hreg]
          constructor
          · intro _ id hid
            rcases List.mem_cons.mp hid with rfl | hid2
            · intro h3
              exact hsb (hfst ▸ installLoop_busy_subset states_ids busy id h3)
            · exact hfree id hid2
          · intro _
            rfl
        · intro j0 hj0
          rw [hreg] at hj0
          cases hj0
        · intro b hb
          rw [hreg]
          exact List.mem_cons_of_mem _
            (hfst ▸ installLoop_busy_subset states_ids busy b hb)
        · intro _ id hid
          rw [hreg]
          rcases List.mem_cons.mp hid with rfl | hid2
          · exact List.mem_cons_self _ _
          · exact List.mem_cons_of_mem _ (hfst ▸ hinst id hid2)
        · intro j0 hj0
          rw [hreg] at hj0
          cases hj0

/-- Witness for C7: with identity 2 already busy, registering states
`[1, 2]` under category 10 fails naming identity 2, which indeed was busy;
state 1, processed first, stays installed; with nothing busy the same
registration succeeds. -/
theorem register_hooks_spec_witness :
    ((2 ∈ ([2] : List Cid) ∧ (2 = 10 ∨ 2 ∈ ([1, 2] : List Cid))) ∧
      1 ∈ (register_hooks 10 [1, 2] [2]).1) ∧
    (register_hooks 10 [1, 2] []).2 = none := by
  have h := register_hooks_spec 10 [1, 2] [2] (by decide)
  have h2 := register_hooks_spec 10 [1, 2] [] (by decide)
  refine ⟨⟨h.2.1 2 (by decide), ?_⟩, (h2.1).mpr (by decide)⟩
  obtain ⟨pre, suf, heq, hpre⟩ := h.2.2.2.2 2 (by decide) (by decide)
  have hpre1 : pre = [1] := by
    have hl : ([1, 2] : List Cid).length = pre.length + (1 + suf.length) := by
      rw [heq]
      simp [List.length_append]
      omega
    cases pre with
    | nil =>
      simp at heq
    | cons a pre2 =>
      cases pre2 with
      | nil =>
        simp at heq
        obtain ⟨h1, _⟩ := heq
        rw [h1]
      | cons b pre3 =>
        simp at hl
        omega
  exact hpre 1 (by rw [hpre1]; exact List.mem_singleton_self 1)

/-- Claim C1 (amended): in every reachable settled state at most one state
component of the category is attached; and for a transaction that consists
of attaching several pairwise-distinct, not-currently-attached states of
the bundle, after the flush settles exactly the most-recently-attached
state remains.  (As originally stated — for arbitrary transactions — the
claim fails; see the counterexample, where a remove and a re-attach of the
same state inside one transaction leave the entity with no state at
all.) -/
theorem exclusivity_last_write_wins (bundle : List Cid) (w : WState)
    (hw : Reachable bundle w) (hq : w.queue = []) :
    w.att.card ≤ 1 ∧
    (∀ (ss : List Cid) (hne : ss ≠ []), ss.Nodup → (∀ s ∈ ss, s ∈ bundle) →
      (∀ s ∈ ss, s ∉ w.att) →
      ∀ n, (flushFuel bundle n { w with queue := ss.map Cmd.insertState }).queue = [] →
        (flushFuel bundle n { w with queue := ss.map Cmd.insertState }).att
          = {ss.getLast hne} ∧
        (flushFuel bundle n
          { w with queue := ss.map Cmd.insertState }).info.states_on_entity
          = [ss.getLast hne]) := by
  have hinv := reachable_inv hw
  refine ⟨settled_card_le_one hinv hq, ?_⟩
  intro ss hne hnd _ hfresh n hn
  obtain ⟨m, hm1, hm2, hm3⟩ := flushInserts bundle ss
    { w with queue := ss.map Cmd.insertState } [] hne hnd
    (fun s hs => hfresh s hs)
    (by simp)
    (by intro c hc; cases hc)
    hinv.nodup
    (fun x => settled_att_iff hinv hq x)
  have huniq := flushFuel_settle_unique hn hm1
  rw [huniq]
  exact ⟨hm2, hm3⟩

/-- Witness for C1: attaching states 1 then 2 in one transaction on a
fresh entity settles with exactly state 2 attached. -/
theorem exclusivity_last_write_wins_witness :
    (flushFuel [1, 2] 3
      { initW with queue := [Cmd.insertState 1, Cmd.insertState 2] }).att = {2} ∧
    (flushFuel [1, 2] 3
      { initW with queue :=
        [Cmd.insertState 1, Cmd.insertState 2] }).info.states_on_entity = [2] := by
  have h := exclusivity_last_write_wins [1, 2] initW Relation.ReflTransGen.refl rfl
  have h2 := h.2 [1, 2] (by decide) (by decide) (by decide) (by decide) 3 (by decide)
  exact h2

/-- The transaction of the C1 counterexample: attach state 1, attach state
2, detach state 1, re-attach state 1 — all enqueued before one flush. -/
def cexTxn : List Cmd :=
  [Cmd.insertState 1, Cmd.insertState 2, Cmd.removeById 1, Cmd.insertState 1]

/-- The loaded world of the C1 counterexample. -/
def cexW : WState :=
  { initW with queue := cexTxn }

/-- Counterexample to claim C1 as stated.  The transaction `cexTxn` is a
legal user transaction from the pristine entity (first conjunct).  During
its flush state 1 is absent right before the final insert applies (after
3 queue steps) and present right after it (after 4 steps) — so state 1 is
the most-recently-attached state of the transaction.  Yet when the flush
settles, no state at all remains attached: the stale deferred removal
scheduled when state 2 was attached kills the re-attached state 1, and the
cascade then empties the entity.  Hence it is not the case that after
every settled transaction the most-recently-attached state remains. -/
theorem last_write_wins_counterexample :
    Reachable [1, 2, 3] cexW ∧
    (flushFuel [1, 2, 3] 3 cexW).att = {2} ∧
    (1 : Cid) ∉ (flushFuel [1, 2, 3] 3 cexW).att ∧
    (1 : Cid) ∈ (flushFuel [1, 2, 3] 4 cexW).att ∧
    (flushFuel [1, 2, 3] 20 cexW).queue = [] ∧
    (flushFuel [1, 2, 3] 20 cexW).att = ∅ := by
  refine ⟨?_, by decide, by decide, by decide, by decide, by decide⟩
  exact reachable_init_load [1, 2, 3] cexTxn (by decide)

/-- Claim C10: no hook destroys the per-entity record.  Cycling
attach(1) then detach(1) leaves the record in place — observable because
its lazily-filled `state_ids` cache survives with the full bundle while
the entity holds no state and no category component — and a later
attach(2) then succeeds and settles with exactly state 2 active. -/
theorem record_persistence_scenario :
    (let w1 := flushFuel [1, 2, 3] 2 { initW with queue := [Cmd.insertState 1] }
     let w2 := flushFuel [1, 2, 3] 4 { w1 with queue := w1.queue ++ [Cmd.removeById 1] }
     let w3 := flushFuel [1, 2, 3] 2 { w2 with queue := w2.queue ++ [Cmd.insertState 2] }
     w1.queue = [] ∧ w1.att = {1} ∧
     w2.queue = [] ∧ w2.att = ∅ ∧ w2.sup = false ∧
       w2.info.state_ids = [1, 2, 3] ∧ w2.info.states_on_entity = [] ∧
     w3.queue = [] ∧ w3.att = {2} ∧ w3.info.states_on_entity = [2] ∧ w3.sup = true) := by
  decide

end Superstate
